import Mathlib

/-!
# Verification of the EKF-SLAM estimator (`EKFSLAM.py`)

Shallow embedding of the EKF-SLAM estimator in exact real arithmetic.
The joint state over `L` landmarks is indexed by `StIdx L = Fin 3 ⊕ Fin L × Fin 2`:
the three pose entries followed by the interleaved `(landmark, coordinate)`
entries, mirroring the flat layout `[x y psi m1x m1y m2x m2y ...]` of the
source.  Matrix slices such as `P[:3, :3]` and `P[:3, 3:]` correspond to the
blocks of a matrix over this sum type.

The geometry utilities (`utils.wrapToPi`, `utils.rotmat2d`) and the external
`JCBB` association oracle are not part of the provided sources; they are
modelled from the specification and clearly marked as such.  Runtime `assert`
statements of the source are treated as the pre/postconditions the claims
discuss, not as control flow, except in `NEESes` where the reachable failure
modes are part of the claims and are modelled explicitly.
-/

open Matrix Real Set

noncomputable section

namespace EKFSLAM

/-! ## Geometry utilities (modelled from the spec) -/

/-- Modelled from the spec: `utils.wrapToPi` (the geometry utility module is not
among the provided sources; the spec states that angles are wrapped to the
interval `(-π, π]`).  The unique representative of `θ` modulo `2π` inside
`(-π, π]`. -/
def wrapToPi (θ : ℝ) : ℝ := θ - 2 * π * (⌈(θ - π) / (2 * π)⌉ : ℤ)

/-- Modelled from the spec: `utils.rotmat2d`, the standard 2D rotation matrix. -/
def rotmat2d (θ : ℝ) : Matrix (Fin 2) (Fin 2) ℝ :=
  !![Real.cos θ, -Real.sin θ; Real.sin θ, Real.cos θ]

/-- Model of `np.arctan2 y x` via the complex argument; values lie in `(-π, π]`. -/
def atan2 (y x : ℝ) : ℝ := Complex.arg (x + y * Complex.I)

/-- Application of `rotmat2d θ` to a point stored as a pair. -/
def rotApply (θ : ℝ) (v : ℝ × ℝ) : ℝ × ℝ :=
  ((rotmat2d θ *ᵥ ![v.1, v.2]) 0, (rotmat2d θ *ᵥ ![v.1, v.2]) 1)

theorem wrapToPi_mem_Ioc (θ : ℝ) : wrapToPi θ ∈ Ioc (-π) π := by
  have hpi : (0 : ℝ) < π := Real.pi_pos
  have h2 : (0 : ℝ) < 2 * π := by linarith
  set k : ℤ := ⌈(θ - π) / (2 * π)⌉ with hk
  have hle : (θ - π) / (2 * π) ≤ (k : ℝ) := Int.le_ceil _
  have hlt : (k : ℝ) < (θ - π) / (2 * π) + 1 := Int.ceil_lt_add_one _
  have h1 : θ - π ≤ (k : ℝ) * (2 * π) := by
    have := mul_le_mul_of_nonneg_right hle (le_of_lt h2)
    rwa [div_mul_cancel₀ _ (ne_of_gt h2)] at this
  have h3 : (k : ℝ) * (2 * π) < θ + π := by
    have := mul_lt_mul_of_pos_right hlt h2
    rw [add_mul, div_mul_cancel₀ _ (ne_of_gt h2)] at this
    linarith
  constructor
  · show -π < θ - 2 * π * (k : ℝ)
    nlinarith
  · show θ - 2 * π * (k : ℝ) ≤ π
    nlinarith

theorem wrapToPi_eq_self {θ : ℝ} (hθ : θ ∈ Ioc (-π) π) : wrapToPi θ = θ := by
  have hpi : (0 : ℝ) < π := Real.pi_pos
  have h2 : (0 : ℝ) < 2 * π := by linarith
  have hceil : ⌈(θ - π) / (2 * π)⌉ = 0 := by
    rw [Int.ceil_eq_zero_iff]
    constructor
    · rw [lt_div_iff h2]
      linarith [hθ.1]
    · apply div_nonpos_of_nonpos_of_nonneg
      · linarith [hθ.2]
      · linarith
  simp [wrapToPi, hceil]

/-! ## Motion model (`EKFSLAM.f`, `EKFSLAM.Fx`, `EKFSLAM.Fu`) -/

/-- Motion model `EKFSLAM.f` (source line 59): position advanced by the
body-frame odometry rotated into the world frame, heading summed and wrapped
to `(-π, π]`. -/
def f (x u : Fin 3 → ℝ) : Fin 3 → ℝ :=
  ![x 0 + (rotmat2d (x 2) *ᵥ ![u 0, u 1]) 0,
    x 1 + (rotmat2d (x 2) *ᵥ ![u 0, u 1]) 1,
    wrapToPi (x 2 + u 2)]

/-- Jacobian `EKFSLAM.Fx` of `f` with respect to the state (source lines 83-84):
the identity with the heading column of the position rows set to
`rotmat2d(ψ + π/2) @ u[:2]`. -/
def Fx (x u : Fin 3 → ℝ) : Matrix (Fin 3) (Fin 3) ℝ :=
  !![1, 0, (rotmat2d (x 2 + π / 2) *ᵥ ![u 0, u 1]) 0;
     0, 1, (rotmat2d (x 2 + π / 2) *ᵥ ![u 0, u 1]) 1;
     0, 0, 1]

/-- Jacobian `EKFSLAM.Fu` of `f` with respect to the control (source lines
107-108): the identity with the top-left 2×2 block replaced by `rotmat2d(ψ)`. -/
def Fu (x u : Fin 3 → ℝ) : Matrix (Fin 3) (Fin 3) ℝ :=
  !![rotmat2d (x 2) 0 0, rotmat2d (x 2) 0 1, 0;
     rotmat2d (x 2) 1 0, rotmat2d (x 2) 1 1, 0;
     0, 0, 1]

/-! ## Configuration and state indexing -/

/-- Constructor configuration of the `EKFSLAM` class (source lines 18-31). -/
structure Config where
  Q : Matrix (Fin 3) (Fin 3) ℝ
  R : Matrix (Fin 2) (Fin 2) ℝ
  do_asso : Bool
  alphas : ℝ × ℝ
  sensor_offset : ℝ × ℝ

/-- Index type of the joint state vector `eta` over `L` landmarks: three pose
entries plus an interleaved `(landmark, coordinate)` pair per landmark. -/
abbrev StIdx (L : ℕ) := Fin 3 ⊕ Fin L × Fin 2

/-! ## Prediction (`EKFSLAM.predict`) -/

/-- State part of `EKFSLAM.predict` (source lines 141-146): the pose sub-vector
is advanced by `f`, the landmark sub-vector is copied unchanged. -/
def predictEta {L : ℕ} (eta : StIdx L → ℝ) (u : Fin 3 → ℝ) : StIdx L → ℝ :=
  Sum.elim (f (fun i => eta (Sum.inl i)) u) (fun jc => eta (Sum.inr jc))

/-- Covariance part of `EKFSLAM.predict` (source lines 156-158): the pose block
becomes `Fx P_xx Fxᵀ + Fu Q Fuᵀ`, the pose-map block becomes `Fx P_xm`, the
map-pose block is set to the transpose of the updated pose-map block, and the
map-map block is untouched. -/
def predictP (cfg : Config) {L : ℕ} (eta : StIdx L → ℝ) (P : Matrix (StIdx L) (StIdx L) ℝ)
    (u : Fin 3 → ℝ) : Matrix (StIdx L) (StIdx L) ℝ :=
  Matrix.fromBlocks
    (Fx (fun i => eta (Sum.inl i)) u * P.toBlocks₁₁ * (Fx (fun i => eta (Sum.inl i)) u)ᵀ
      + Fu (fun i => eta (Sum.inl i)) u * cfg.Q * (Fu (fun i => eta (Sum.inl i)) u)ᵀ)
    (Fx (fun i => eta (Sum.inl i)) u * P.toBlocks₁₂)
    (Fx (fun i => eta (Sum.inl i)) u * P.toBlocks₁₂)ᵀ
    P.toBlocks₂₂

/-- Orchestrated `EKFSLAM.predict`: the predicted mean and covariance. -/
def predict (cfg : Config) {L : ℕ} (eta : StIdx L → ℝ) (P : Matrix (StIdx L) (StIdx L) ℝ)
    (z_odo : Fin 3 → ℝ) : (StIdx L → ℝ) × Matrix (StIdx L) (StIdx L) ℝ :=
  (predictEta eta z_odo, predictP cfg eta P z_odo)

/-! ## Measurement model (`EKFSLAM.h`, `EKFSLAM.H`) -/

/-- Euclidean norm of a pair, modelling `np.linalg.norm` on a 2-vector. -/
def norm2 (v : ℝ × ℝ) : ℝ := Real.sqrt (v.1 ^ 2 + v.2 ^ 2)

/-- Position of landmark `j` inside the state vector. -/
def lm {L : ℕ} (eta : StIdx L → ℝ) (j : Fin L) : ℝ × ℝ :=
  (eta (Sum.inr (j, 0)), eta (Sum.inr (j, 1)))

/-- Relative position `delta_m` of landmark `j` to the sensor in the world frame
(source line 192): landmark minus robot position minus the sensor offset
rotated into the world frame. -/
def hDelta (cfg : Config) {L : ℕ} (eta : StIdx L → ℝ) (j : Fin L) : ℝ × ℝ :=
  lm eta j - (eta (Sum.inl 0), eta (Sum.inl 1)) - rotApply (eta (Sum.inl 2)) cfg.sensor_offset

/-- Measurement prediction `EKFSLAM.h` (source lines 184-209), interleaved
(range, bearing) pairs: index `(j, 0)` is the range of landmark `j` (the norm of
`delta_m`), index `(j, 1)` its bearing (`arctan2` of the sensor-frame vector
`rotmat2d(-ψ) @ delta_m`). -/
def h (cfg : Config) {L : ℕ} (eta : StIdx L → ℝ) : Fin L × Fin 2 → ℝ :=
  fun jc =>
    if jc.2 = 0 then norm2 (hDelta cfg eta jc.1)
    else
      atan2 (rotApply (-eta (Sum.inl 2)) (hDelta cfg eta jc.1)).2
            (rotApply (-eta (Sum.inl 2)) (hDelta cfg eta jc.1)).1

/-- Relative position of landmark `j` to the robot (no sensor offset), the
`delta_m` of `EKFSLAM.H` (source line 234). -/
def HdeltaM {L : ℕ} (eta : StIdx L → ℝ) (j : Fin L) : ℝ × ℝ :=
  lm eta j - (eta (Sum.inl 0), eta (Sum.inl 1))

/-- Cartesian predicted measurement `zc` of `EKFSLAM.H` (source line 236). -/
def zcH (cfg : Config) {L : ℕ} (eta : StIdx L → ℝ) (j : Fin L) : ℝ × ℝ :=
  HdeltaM eta j - rotApply (eta (Sum.inl 2)) cfg.sensor_offset

/-- Intermediate `jac_z_cb` of `EKFSLAM.H` (source lines 259-261): `-eye(2, 3)`
with the last column replaced by `-rotmat2d(π/2) @ delta_m`. -/
def jacZcb (delta : ℝ × ℝ) : Matrix (Fin 2) (Fin 3) ℝ :=
  Matrix.of fun t k =>
    if k = 2 then -(rotmat2d (π / 2) *ᵥ ![delta.1, delta.2]) t
    else if (k : ℕ) = (t : ℕ) then -1 else 0

/-- Row `delx_i` of `EKFSLAM.H` (source line 263): `(zcᵀ / zr) @ jac_z_cb`,
where `zr` is the predicted range taken from `h`. -/
def delx (cfg : Config) {L : ℕ} (eta : StIdx L → ℝ) (j : Fin L) : Fin 3 → ℝ :=
  (fun t => ![(zcH cfg eta j).1, (zcH cfg eta j).2] t / h cfg eta (j, 0))
    ᵥ* jacZcb (HdeltaM eta j)

/-- Row `delang_i` of `EKFSLAM.H` (source line 264):
`(zcᵀ Rpihalfᵀ / ‖zc‖²) @ jac_z_cb`. -/
def delang (cfg : Config) {L : ℕ} (eta : StIdx L → ℝ) (j : Fin L) : Fin 3 → ℝ :=
  (fun t => (![(zcH cfg eta j).1, (zcH cfg eta j).2] ᵥ* (rotmat2d (π / 2))ᵀ) t
    / norm2 (zcH cfg eta j) ^ 2) ᵥ* jacZcb (HdeltaM eta j)

/-- Measurement Jacobian `EKFSLAM.H` (source lines 253-267): rows `(j, 0)` and
`(j, 1)` hold `delx_j` resp. `delang_j` in the pose columns, the landmark's own
two columns hold the negated first two pose columns, and every other entry is
zero. -/
def H (cfg : Config) {L : ℕ} (eta : StIdx L → ℝ) : Matrix (Fin L × Fin 2) (StIdx L) ℝ :=
  Matrix.of fun jc idx =>
    match idx with
    | Sum.inl k => if jc.2 = 0 then delx cfg eta jc.1 k else delang cfg eta jc.1 k
    | Sum.inr jd =>
        if jd.1 = jc.1 then
          -(if jc.2 = 0 then delx cfg eta jc.1 jd.2.castSucc
            else delang cfg eta jc.1 jd.2.castSucc)
        else 0

/-! ## Big measurement noise and innovation covariance (`EKFSLAM.update`) -/

/-- Tiling `np.matlib.repmat(self.R, numLmk, numLmk)` of the per-landmark 2×2
noise matrix over the measurement index space: entry `((i,a),(j,b))` is `R a b`. -/
def repmatR (R2 : Matrix (Fin 2) (Fin 2) ℝ) (L : ℕ) :
    Matrix (Fin L × Fin 2) (Fin L × Fin 2) ℝ :=
  Matrix.of fun p q => R2 p.2 q.2

/-- Big measurement-noise matrix assembled in `EKFSLAM.update` (source line
421): `np.diag(np.diagonal(repmat(R, numLmk, numLmk)))`, the diagonal matrix
holding the diagonal of the tiled `R`. -/
def bigR (R2 : Matrix (Fin 2) (Fin 2) ℝ) (L : ℕ) :
    Matrix (Fin L × Fin 2) (Fin L × Fin 2) ℝ :=
  Matrix.diagonal fun p => repmatR R2 L p p

/-- Spec-side definition for refinement comparison, following the words of the
spec: the big noise matrix is "the block-diagonal repetition of the per-landmark
R across matched landmarks", one full 2×2 block of `R` per landmark. -/
def bigRSpec (R2 : Matrix (Fin 2) (Fin 2) ℝ) (L : ℕ) :
    Matrix (Fin L × Fin 2) (Fin L × Fin 2) ℝ :=
  Matrix.of fun p q => if p.1 = q.1 then R2 p.2 q.2 else 0

/-- Innovation covariance `S = H P Hᵀ + R` of `EKFSLAM.update` (source line 425). -/
def Sbig (cfg : Config) {L : ℕ} (eta : StIdx L → ℝ)
    (P : Matrix (StIdx L) (StIdx L) ℝ) : Matrix (Fin L × Fin 2) (Fin L × Fin 2) ℝ :=
  H cfg eta * P * (H cfg eta)ᵀ + bigR cfg.R L

/-! ## Association adapter (`EKFSLAM.associate`) -/

/-- Modelled from the spec: the type of the external JCBB association oracle
(the `JCBB` module is not among the provided sources; the spec treats it as a
black-box oracle consuming measurement/prediction/innovation-covariance triples
and the two significance levels).  Per measurement it returns the matched
landmark index, or `none` for the `-1` "unmatched" sentinel of the source. -/
def JCBBFun : Type :=
  ∀ {M L : ℕ}, (Fin M → ℝ × ℝ) → (Fin L × Fin 2 → ℝ) →
    Matrix (Fin L × Fin 2) (Fin L × Fin 2) ℝ → ℝ → ℝ → (Fin M → Option (Fin L))

/-- Association assignment: `a i = some j` when measurement `i` is matched with
landmark `j`, `a i = none` for the `-1` "new landmark" sentinel. -/
abbrev Assignment (M L : ℕ) := Fin M → Option (Fin L)

/-- Index type of the matched measurements extracted by `EKFSLAM.associate`. -/
abbrev MIdx {M L : ℕ} (a : Assignment M L) := {i : Fin M // (a i).isSome}

/-- Component `c` of a measurement pair (access into the raveled `z`). -/
def zcomp (p : ℝ × ℝ) (c : Fin 2) : ℝ := if c = 0 then p.1 else p.2

/-- Matched measurements `zass` of `EKFSLAM.associate` (source line 374). -/
def zass {M L : ℕ} (a : Assignment M L) (z : Fin M → ℝ × ℝ) : MIdx a × Fin 2 → ℝ :=
  fun p => zcomp (z p.1.1) p.2

/-- Matched predicted measurements `zpredass` of `EKFSLAM.associate` (source
lines 377-381): predicted rows re-ordered by the matched landmark index. -/
def zpredass {M L : ℕ} (a : Assignment M L) (zp : Fin L × Fin 2 → ℝ) :
    MIdx a × Fin 2 → ℝ :=
  fun p => zp ((a p.1.1).get p.1.2, p.2)

/-- Matched rows `Hass` of the measurement Jacobian (source line 383). -/
def Hass {M L : ℕ} (a : Assignment M L) (Hm : Matrix (Fin L × Fin 2) (StIdx L) ℝ) :
    Matrix (MIdx a × Fin 2) (StIdx L) ℝ :=
  Matrix.of fun p idx => Hm ((a p.1.1).get p.1.2, p.2) idx

/-- Matched innovation covariance `Sass` (source line 382). -/
def Sass {M L : ℕ} (a : Assignment M L)
    (S : Matrix (Fin L × Fin 2) (Fin L × Fin 2) ℝ) :
    Matrix (MIdx a × Fin 2) (MIdx a × Fin 2) ℝ :=
  Matrix.of fun p q => S ((a p.1.1).get p.1.2, p.2) ((a q.1.1).get q.1.2, q.2)

/-- Adapter `EKFSLAM.associate` (source lines 340-392): when association is
enabled it consults the external oracle and returns the assignment, from which
the matched quantities `zass`, `zpredass`, `Hass`, `Sass` above are extracted;
when association is disabled the body is `pass`, i.e. the method returns
nothing — modelled as `none`. -/
def associate (cfg : Config) (jcbb : JCBBFun) {M L : ℕ} (z : Fin M → ℝ × ℝ)
    (zp : Fin L × Fin 2 → ℝ) (Hm : Matrix (Fin L × Fin 2) (StIdx L) ℝ)
    (S : Matrix (Fin L × Fin 2) (Fin L × Fin 2) ℝ) : Option (Assignment M L) :=
  if cfg.do_asso then some (jcbb z zp S cfg.alphas.1 cfg.alphas.2) else none

/-! ## Kalman correction step (`EKFSLAM.update`, matched branch) -/

/-- Innovation `v` of `EKFSLAM.update` (source lines 442-443): matched
measurements minus matched predictions, with every bearing component
individually wrapped to `(-π, π]`. -/
def innov {M L : ℕ} (a : Assignment M L) (z : Fin M → ℝ × ℝ)
    (zp : Fin L × Fin 2 → ℝ) : MIdx a × Fin 2 → ℝ :=
  fun p =>
    if p.2 = 1 then wrapToPi (zass a z p - zpredass a zp p)
    else zass a z p - zpredass a zp p

/-- Kalman gain `W = P Haᵀ Sa⁻¹` of `EKFSLAM.update` (source line 449). -/
def kalmanW {n m : Type} [Fintype n] [Fintype m] [DecidableEq m]
    (P : Matrix n n ℝ) (Ha : Matrix m n ℝ) (Sa : Matrix m m ℝ) : Matrix n m ℝ :=
  P * Haᵀ * Sa⁻¹

/-- In-place diagonal increment `jo[np.diag_indices(jo.shape[0])] += 1`
(source line 455). -/
def addDiagOne {n : Type} [DecidableEq n] (A : Matrix n n ℝ) : Matrix n n ℝ :=
  Matrix.of fun i j => if i = j then A i j + 1 else A i j

/-- Covariance update `Pupd = jo @ P` with `jo = -W @ Ha` plus the in-place
diagonal increment (source lines 454-457). -/
def josephCov {n m : Type} [Fintype n] [Fintype m] [DecidableEq n]
    (W : Matrix n m ℝ) (Ha : Matrix m n ℝ) (P : Matrix n n ℝ) : Matrix n n ℝ :=
  addDiagOne (-(W * Ha)) * P

/-- NIS value `vᵀ Sa⁻¹ v` computed through the Cholesky solve (source line 460). -/
def NIScalc {m : Type} [Fintype m] [DecidableEq m] (Sa : Matrix m m ℝ) (v : m → ℝ) : ℝ :=
  dotProduct v (Sa⁻¹ *ᵥ v)

/-! ## Landmark initializer (`EKFSLAM.add_landmarks`) -/

/-- World-frame position of new landmark `j` (source lines 311-313):
`eta[:2] + r * rot(ψ+θ)[:,0] + rot(ψ) @ sensor_offset`. -/
def lmnew (cfg : Config) {L k : ℕ} (eta : StIdx L → ℝ) (znew : Fin k → ℝ × ℝ)
    (j : Fin k) : ℝ × ℝ :=
  (eta (Sum.inl 0), eta (Sum.inl 1))
    + ((znew j).1 * rotmat2d (eta (Sum.inl 2) + (znew j).2) 0 0,
       (znew j).1 * rotmat2d (eta (Sum.inl 2) + (znew j).2) 1 0)
    + rotApply (eta (Sum.inl 2)) cfg.sensor_offset

/-- Jacobian `Gx` of the new landmarks with respect to the pose (source lines
315-316): identity in the first two columns, heading column
`r * rot(ψ+θ)[:,1] + rot(ψ+π/2) @ sensor_offset`. -/
def Gx (cfg : Config) {L k : ℕ} (eta : StIdx L → ℝ) (znew : Fin k → ℝ × ℝ) :
    Matrix (Fin k × Fin 2) (Fin 3) ℝ :=
  Matrix.of fun p t =>
    if t = 2 then
      (znew p.1).1 * rotmat2d (eta (Sum.inl 2) + (znew p.1).2) p.2 1
        + zcomp (rotApply (eta (Sum.inl 2) + π / 2) cfg.sensor_offset) p.2
    else if (t : ℕ) = (p.2 : ℕ) then 1 else 0

/-- Per-landmark polar-to-Cartesian Jacobian `Gz = rot @ diag(1, r)` (source
line 318). -/
def Gz {k : ℕ} (psi : ℝ) (znew : Fin k → ℝ × ℝ) (j : Fin k) :
    Matrix (Fin 2) (Fin 2) ℝ :=
  rotmat2d (psi + (znew j).2) * Matrix.diagonal ![1, (znew j).1]

/-- Block-diagonal transported measurement noise `Rall` with per-landmark
blocks `Gz R Gzᵀ` (source lines 301, 320). -/
def Rall (cfg : Config) {k : ℕ} (psi : ℝ) (znew : Fin k → ℝ × ℝ) :
    Matrix (Fin k × Fin 2) (Fin k × Fin 2) ℝ :=
  Matrix.of fun p q =>
    if p.1 = q.1 then (Gz psi znew p.1 * cfg.R * (Gz psi znew p.1)ᵀ) p.2 q.2 else 0

/-- Augmented state of `EKFSLAM.add_landmarks` (source line 323): the old
entries followed by the new landmark coordinates. -/
def etaAdded (cfg : Config) {L k : ℕ} (eta : StIdx L → ℝ) (znew : Fin k → ℝ × ℝ) :
    StIdx L ⊕ Fin k × Fin 2 → ℝ :=
  Sum.elim eta fun p => zcomp (lmnew cfg eta znew p.1) p.2

/-- Pose columns `P[:, :3]` of the covariance. -/
def Pcols3 {L : ℕ} (P : Matrix (StIdx L) (StIdx L) ℝ) : Matrix (StIdx L) (Fin 3) ℝ :=
  P.submatrix id Sum.inl

/-- Augmented covariance of `EKFSLAM.add_landmarks` (source lines 324-326):
block diagonal of `P` and `Gx P_xx Gxᵀ + Rall`, with the top-right corner
overwritten by `P[:, :3] @ Gxᵀ` and the bottom-left corner by its transpose. -/
def Padded (cfg : Config) {L k : ℕ} (eta : StIdx L → ℝ)
    (P : Matrix (StIdx L) (StIdx L) ℝ) (znew : Fin k → ℝ × ℝ) :
    Matrix (StIdx L ⊕ Fin k × Fin 2) (StIdx L ⊕ Fin k × Fin 2) ℝ :=
  Matrix.fromBlocks P (Pcols3 P * (Gx cfg eta znew)ᵀ)
    (Pcols3 P * (Gx cfg eta znew)ᵀ)ᵀ
    (Gx cfg eta znew * P.toBlocks₁₁ * (Gx cfg eta znew)ᵀ
      + Rall cfg (eta (Sum.inl 2)) znew)

/-- Landmark initializer `EKFSLAM.add_landmarks` (source lines 274-338). -/
def add_landmarks (cfg : Config) {L k : ℕ} (eta : StIdx L → ℝ)
    (P : Matrix (StIdx L) (StIdx L) ℝ) (znew : Fin k → ℝ × ℝ) :
    (StIdx L ⊕ Fin k × Fin 2 → ℝ)
      × Matrix (StIdx L ⊕ Fin k × Fin 2) (StIdx L ⊕ Fin k × Fin 2) ℝ :=
  (etaAdded cfg eta znew, Padded cfg eta P znew)

/-! ## Filter orchestrator (`EKFSLAM.update`) -/

/-- Result type of `EKFSLAM.update`: `k` new landmarks appended to the state,
plus the NIS value and the assignment vector. -/
def UpdOut (L M : ℕ) : Type :=
  Σ k : ℕ, (StIdx L ⊕ Fin k × Fin 2 → ℝ)
    × Matrix (StIdx L ⊕ Fin k × Fin 2) (StIdx L ⊕ Fin k × Fin 2) ℝ × ℝ × Assignment M L

/-- Trivial embedding of an unaugmented state vector into the `k = 0` layout. -/
def ext0Vec {L : ℕ} (v : StIdx L → ℝ) : StIdx L ⊕ Fin 0 × Fin 2 → ℝ :=
  Sum.elim v fun p => Fin.elim0 p.1

/-- Trivial embedding of an unaugmented covariance into the `k = 0` layout. -/
def ext0Mat {L : ℕ} (P : Matrix (StIdx L) (StIdx L) ℝ) :
    Matrix (StIdx L ⊕ Fin 0 × Fin 2) (StIdx L ⊕ Fin 0 × Fin 2) ℝ :=
  Matrix.fromBlocks P 0 0 0

/-- New-landmark step at the end of `EKFSLAM.update` (source lines 476-483):
when association is enabled and some measurement is unmatched, the unmatched
measurements (in index order) are turned into landmarks via `add_landmarks`;
otherwise the state passes through unchanged. -/
def newLmkStep (cfg : Config) {L M : ℕ} (eta : StIdx L → ℝ)
    (P : Matrix (StIdx L) (StIdx L) ℝ) (NIS : ℝ) (a : Assignment M L)
    (z : Fin M → ℝ × ℝ) : UpdOut L M :=
  if cfg.do_asso ∧ (∃ i, a i = none) then
    ⟨Fintype.card {i : Fin M // a i = none},
      add_landmarks cfg eta P
        (fun t => z ((monoEquivOfFin {i : Fin M // a i = none} rfl) t).1) |>.1,
      add_landmarks cfg eta P
        (fun t => z ((monoEquivOfFin {i : Fin M // a i = none} rfl) t).1) |>.2,
      NIS, a⟩
  else ⟨0, ext0Vec eta, ext0Mat P, NIS, a⟩

/-- Filter update `EKFSLAM.update` (source lines 394-488).  The value is `none`
exactly when the source would raise: with association disabled and landmarks
present, `associate` returns nothing and the tuple unpacking at source line 432
fails. -/
def update (cfg : Config) (jcbb : JCBBFun) {L M : ℕ} (eta : StIdx L → ℝ)
    (P : Matrix (StIdx L) (StIdx L) ℝ) (z : Fin M → ℝ × ℝ) : Option (UpdOut L M) :=
  if 0 < L then
    match associate cfg jcbb z (h cfg eta) (H cfg eta) (Sbig cfg eta P) with
    | none => none
    | some a =>
      if ∀ i, a i = none then some (newLmkStep cfg eta P 1 a z)
      else
        some (newLmkStep cfg
          (fun idx => eta idx
            + (kalmanW P (Hass a (H cfg eta)) (Sass a (Sbig cfg eta P))
                *ᵥ innov a z (h cfg eta)) idx)
          (josephCov (kalmanW P (Hass a (H cfg eta)) (Sass a (Sbig cfg eta P)))
            (Hass a (H cfg eta)) P)
          (NIScalc (Sass a (Sbig cfg eta P)) (innov a z (h cfg eta)))
          a z)
  else some (newLmkStep cfg eta P 1 (fun _ => none) z)

/-! ## Consistency diagnostics (`EKFSLAM.NEESes`) -/

/-- Value model for the NEES computation with numpy float semantics: numpy
scalar division does not raise `ZeroDivisionError` (the `except` branch at
source line 526 is unreachable for numpy scalars) but produces `inf` (positive
numerator over zero) or `nan` (zero over zero).  These are the only non-finite
outcomes arising in `NEESes`. -/
inductive FVal where
  | num : ℝ → FVal
  | inf : FVal
  | nan : FVal
deriving DecidableEq

/-- Model of numpy float division as used at source line 525, where the
numerator is a square (hence nonnegative): division by zero yields `nan` for a
zero numerator and `+inf` otherwise. -/
def fdiv (a b : ℝ) : FVal :=
  if b = 0 then (if a = 0 then FVal.nan else FVal.inf) else FVal.num (a / b)

/-- Clamp `NEESes[np.isnan(NEESes)] = 1.0` (source line 530): `nan` is replaced
by the neutral value 1, every other value is left alone. -/
def clampNaN : FVal → FVal
  | FVal.nan => FVal.num 1
  | v => v

/-- Nonnegativity test of the final assertion (source line 532) under IEEE
comparison semantics: `inf >= 0` holds and any comparison with `nan` fails. -/
def fvNonneg : FVal → Prop
  | FVal.num a => 0 ≤ a
  | FVal.inf => True
  | FVal.nan => False

open scoped Classical in
/-- Model of `np.linalg.solve` (source lines 522-523): the solution for an
invertible matrix, and the `LinAlgError` raised on a singular one. -/
def npSolve {n : ℕ} (A : Matrix (Fin n) (Fin n) ℝ) (b : Fin n → ℝ) :
    Except String (Fin n → ℝ) :=
  if A.det = 0 then Except.error "LinAlgError: Singular matrix"
  else Except.ok (A⁻¹ *ᵥ b)

/-- Error difference `d_x` of `EKFSLAM.NEESes` with the heading component
wrapped before any squaring (source lines 507-508). -/
def neesErr (x x_gt : Fin 3 → ℝ) : Fin 3 → ℝ :=
  fun i => if i = 2 then wrapToPi (x 2 - x_gt 2) else x i - x_gt i

theorem neesErr_two (x x_gt : Fin 3 → ℝ) :
    neesErr x x_gt 2 = wrapToPi (x 2 - x_gt 2) := rfl

open scoped Classical in
/-- Core of `EKFSLAM.NEESes` after the shape assertions (source lines 507-533):
the error difference `neesErr` has its heading component wrapped before
squaring; the wrap-range assertion of lines 509-511 is kept as a guard; the two
Mahalanobis terms go through the `np.linalg.solve` model (whose `LinAlgError`
propagates); the heading term uses numpy float division; `nan` entries are
clamped to 1.0 by `clampNaN`; the final nonnegativity assertion is kept as a
guard. -/
def NEEScore (x : Fin 3 → ℝ) (P : Matrix (Fin 3) (Fin 3) ℝ) (x_gt : Fin 3 → ℝ) :
    Except String (FVal × FVal × FVal) :=
  if -π ≤ neesErr x x_gt 2 ∧ neesErr x x_gt 2 ≤ π then
    match npSolve P (neesErr x x_gt) with
    | Except.error e => Except.error e
    | Except.ok sAll =>
      match npSolve (P.submatrix Fin.castSucc Fin.castSucc)
          (fun i => neesErr x x_gt i.castSucc) with
      | Except.error e => Except.error e
      | Except.ok sPos =>
        if fvNonneg (clampNaN (FVal.num (dotProduct (neesErr x x_gt) sAll)))
            ∧ fvNonneg (clampNaN (FVal.num
                (dotProduct (fun i => neesErr x x_gt i.castSucc) sPos)))
            ∧ fvNonneg (clampNaN (fdiv (neesErr x x_gt 2 ^ 2) (P 2 2))) then
          Except.ok (clampNaN (FVal.num (dotProduct (neesErr x x_gt) sAll)),
            clampNaN (FVal.num (dotProduct (fun i => neesErr x x_gt i.castSucc) sPos)),
            clampNaN (fdiv (neesErr x x_gt 2 ^ 2) (P 2 2)))
        else Except.error "ESKF.NEES: one or more negative NEESes"
  else Except.error "EKFSLAM.NEES: error heading must be between (-pi, pi)"

/-- Shape-checked entry point `EKFSLAM.NEESes` (source lines 503-505): the
inputs must be pose-sized — `x` and `x_gt` of shape `(3,)` and `P` of shape
`(3, 3)` — otherwise the corresponding assertion fails. -/
def NEESes {xn pn gn : ℕ} (x : Fin xn → ℝ) (P : Matrix (Fin pn) (Fin pn) ℝ)
    (x_gt : Fin gn → ℝ) : Except String (FVal × FVal × FVal) :=
  if hx : xn = 3 then
    if hp : pn = 3 then
      if hg : gn = 3 then
        NEEScore (fun i => x (Fin.cast hx.symm i))
          (P.submatrix (Fin.cast hp.symm) (Fin.cast hp.symm))
          (fun i => x_gt (Fin.cast hg.symm i))
      else Except.error "EKFSLAM.NEES: x_gt shape incorrect"
    else Except.error "EKFSLAM.NEES: P shape incorrect"
  else Except.error "EKFSLAM.NEES: x shape incorrect"

/-- Reindexing of an augmented state over `StIdx L ⊕ Fin k × Fin 2` to the
canonical layout `StIdx (L + k)`: old landmarks keep their indices, the new
ones are appended after them, matching the concatenation in the source. -/
def castAdded {L k : ℕ} (v : StIdx L ⊕ Fin k × Fin 2 → ℝ) : StIdx (L + k) → ℝ :=
  fun idx =>
    match idx with
    | Sum.inl t => v (Sum.inl (Sum.inl t))
    | Sum.inr jc =>
        if hj : (jc.1 : ℕ) < L then v (Sum.inl (Sum.inr (⟨jc.1, hj⟩, jc.2)))
        else v (Sum.inr (⟨(jc.1 : ℕ) - L, by omega⟩, jc.2))

/-! ## Shared helper lemmas -/

theorem rotApply_def (θ : ℝ) (v : ℝ × ℝ) :
    rotApply θ v = (Real.cos θ * v.1 - Real.sin θ * v.2,
                    Real.sin θ * v.1 + Real.cos θ * v.2) := by
  simp only [rotApply, rotmat2d, Matrix.mulVec, dotProduct, Fin.sum_univ_two]
  rw [Prod.mk.injEq]
  constructor <;> simp <;> ring

theorem addDiagOne_eq {n : Type} [DecidableEq n] (A : Matrix n n ℝ) :
    addDiagOne A = 1 + A := by
  ext i j
  by_cases hij : i = j
  · subst hij; simp [addDiagOne, Matrix.one_apply, add_comm]
  · simp [addDiagOne, Matrix.one_apply, hij]

/-! ## Concrete fixtures used by witnesses and counterexamples -/

/-- Concrete configuration with association enabled (identity noise models). -/
def cfgOn : Config := ⟨1, 1, true, (0, 0), (0, 0)⟩

/-- Concrete configuration with association disabled (identity noise models). -/
def cfgOff : Config := ⟨1, 1, false, (0, 0), (0, 0)⟩

/-- Concrete association oracle: match every measurement with landmark 0
whenever a landmark exists. -/
def jcbb0 : JCBBFun :=
  fun {_ L} _ _ _ _ _ _ => if hL : 0 < L then some ⟨0, hL⟩ else none

/-! ## Claim C4 -/

/-- Claim C4: for every `(eta, P)` with `L ≥ 0` landmarks, `predict` leaves the
landmark sub-vector of `eta` unchanged and the map-map block of `P` unchanged,
and the map-pose block of the predicted covariance is the exact transpose of
its pose-map block; only the pose entries, the pose covariance block and the
pose-map cross blocks are modified. -/
theorem predict_frame_effect (cfg : Config) {L : ℕ} (eta : StIdx L → ℝ)
    (P : Matrix (StIdx L) (StIdx L) ℝ) (u : Fin 3 → ℝ) :
    (∀ jc : Fin L × Fin 2, (predict cfg eta P u).1 (Sum.inr jc) = eta (Sum.inr jc))
      ∧ ((predict cfg eta P u).2).toBlocks₂₂ = P.toBlocks₂₂
      ∧ ((predict cfg eta P u).2).toBlocks₂₁ = ((predict cfg eta P u).2).toBlocks₁₂ᵀ := by
  refine ⟨fun jc => rfl, ?_, ?_⟩
  · simp [predict, predictP, Matrix.toBlocks_fromBlocks₂₂]
  · simp [predict, predictP, Matrix.toBlocks_fromBlocks₂₁, Matrix.toBlocks_fromBlocks₁₂]

/-! ## Claim C7 -/

/-- Claim C7: the heading component of the pose returned by `f` (and hence of
`eta` after `predict`), and every bearing component of the innovation computed
in `update`, lie in the interval `(-π, π]`. -/
theorem heading_and_bearing_wrapped :
    (∀ x u : Fin 3 → ℝ, f x u 2 ∈ Ioc (-π) π)
      ∧ (∀ (L : ℕ) (eta : StIdx L → ℝ) (u : Fin 3 → ℝ),
          predictEta eta u (Sum.inl 2) ∈ Ioc (-π) π)
      ∧ (∀ (M L : ℕ) (a : Assignment M L) (z : Fin M → ℝ × ℝ)
          (zp : Fin L × Fin 2 → ℝ) (p : MIdx a),
          innov a z zp (p, 1) ∈ Ioc (-π) π) := by
  refine ⟨fun x u => ?_, fun L eta u => ?_, fun M L a z zp p => ?_⟩
  · simpa [f] using wrapToPi_mem_Ioc (x 2 + u 2)
  · simpa [predictEta, f] using wrapToPi_mem_Ioc (eta (Sum.inl 2) + u 2)
  · simpa [innov] using wrapToPi_mem_Ioc (zass a z (p, 1) - zpredass a zp (p, 1))

/-! ## Claim C10 -/

/-- Claim C10: `NEESes` accepts only pose-sized inputs — passing the full SLAM
state of length `3 + 2L` with `L > 0` fails the shape assertion, so the NEES
diagnostic is defined on the robot pose alone, never on the landmark map. -/
theorem NEESes_rejects_full_state {L : ℕ} (hL : 0 < L)
    (x : Fin (3 + 2 * L) → ℝ) (P : Matrix (Fin (3 + 2 * L)) (Fin (3 + 2 * L)) ℝ)
    (x_gt : Fin (3 + 2 * L) → ℝ) :
    NEESes x P x_gt = Except.error "EKFSLAM.NEES: x shape incorrect" := by
  have hne : 3 + 2 * L ≠ 3 := by omega
  simp [NEESes, hne]

/-- Witness for claim C10 at a concrete one-landmark-sized input. -/
theorem NEESes_rejects_full_state_witness :
    NEESes (fun _ : Fin (3 + 2 * 1) => (0 : ℝ))
        (0 : Matrix (Fin (3 + 2 * 1)) (Fin (3 + 2 * 1)) ℝ)
        (fun _ : Fin (3 + 2 * 1) => (0 : ℝ))
      = Except.error "EKFSLAM.NEES: x shape incorrect" :=
  NEESes_rejects_full_state one_pos _ _ _

/-! ## Claim C3 -/

/-- Claim C3 (amended): the big noise matrix assembled in `update` before
`S = H P Hᵀ + R` is the diagonal matrix that repeats the diagonal entries of
the per-landmark `R` (its off-diagonal entries are dropped); it coincides with
the block-diagonal repetition of the full per-landmark 2×2 `R` exactly when the
configured `R` is diagonal. -/
theorem bigR_eq :
    (∀ (R2 : Matrix (Fin 2) (Fin 2) ℝ) (L : ℕ),
        bigR R2 L = Matrix.diagonal fun p : Fin L × Fin 2 => R2 p.2 p.2)
      ∧ ∀ (R2 : Matrix (Fin 2) (Fin 2) ℝ) (L : ℕ), R2 0 1 = 0 → R2 1 0 = 0 →
          bigR R2 L = bigRSpec R2 L := by
  refine ⟨fun R2 L => rfl, fun R2 L h01 h10 => ?_⟩
  ext p q
  obtain ⟨pj, pc⟩ := p
  obtain ⟨qj, qc⟩ := q
  simp only [bigR, bigRSpec, repmatR, Matrix.diagonal_apply, Matrix.of_apply]
  by_cases hj : pj = qj
  · subst hj
    by_cases hc : pc = qc
    · subst hc; simp
    · rw [if_neg (by simp [hc]), if_pos rfl]
      fin_cases pc <;> fin_cases qc <;> simp_all
  · rw [if_neg (by simp [hj]), if_neg hj]

/-- Counterexample for claim C3 as stated: with the non-diagonal per-landmark
noise `R = [[1, 2], [3, 4]]` and one landmark, the big `R` assembled by the
code is not the block-diagonal repetition of `R` — the off-diagonal entries of
`R` are dropped. -/
theorem bigR_counterexample :
    bigR !![(1 : ℝ), 2; 3, 4] 1 ≠ bigRSpec !![(1 : ℝ), 2; 3, 4] 1 := by
  intro hcontra
  have h2 := congrFun (congrFun hcontra ((0 : Fin 1), (0 : Fin 2)))
    ((0 : Fin 1), (1 : Fin 2))
  simp [bigR, bigRSpec, repmatR, Matrix.diagonal_apply] at h2
  rw [if_neg (by decide)] at h2
  exact absurd h2 (by norm_num)

/-- Witness for claim C3 at a concrete diagonal noise configuration. -/
theorem bigR_eq_witness :
    bigR !![(1 : ℝ), 0; 0, 2] 1 = bigRSpec !![(1 : ℝ), 0; 0, 2] 1 :=
  bigR_eq.2 !![(1 : ℝ), 0; 0, 2] 1 (by simp) (by simp)

/-! ## Claim C6 -/

/-- Claim C6: calling `update` with an empty measurement batch returns
`(eta, P)` unchanged together with the neutral NIS sentinel 1, both when no
landmarks exist yet (any association setting) and when landmarks exist but
zero measurements are matched (association ran, so it is enabled). -/
theorem update_empty_batch_noop (cfg : Config) (jcbb : JCBBFun) {L : ℕ}
    (eta : StIdx L → ℝ) (P : Matrix (StIdx L) (StIdx L) ℝ) (z : Fin 0 → ℝ × ℝ)
    (hasso : 0 < L → cfg.do_asso = true) :
    update cfg jcbb eta P z = some ⟨0, ext0Vec eta, ext0Mat P, 1, fun _ => none⟩ := by
  by_cases hL : 0 < L
  · have ha := hasso hL
    have haeq : jcbb z (h cfg eta) (Sbig cfg eta P) cfg.alphas.1 cfg.alphas.2
        = (fun _ : Fin 0 => (none : Option (Fin L))) := funext fun i => i.elim0
    simp [update, hL, associate, ha, haeq, newLmkStep]
  · simp [update, hL, newLmkStep]

/-- Witness for claim C6 at a concrete one-landmark state with association
enabled and an empty batch. -/
theorem update_empty_batch_noop_witness :
    update cfgOn jcbb0 (fun _ : StIdx 1 => (0 : ℝ)) 0 (fun _ : Fin 0 => ((0 : ℝ), (0 : ℝ)))
      = some ⟨0, ext0Vec (fun _ : StIdx 1 => (0 : ℝ)), ext0Mat 0, 1, fun _ => none⟩ :=
  update_empty_batch_noop cfgOn jcbb0 _ _ _ (fun _ => rfl)

/-! ## Claim C8 -/

/-- Claim C8 (amended): with association disabled, `update` on a landmark-free
state treats every measurement as unmatched, never invokes the landmark
initializer and leaves `(eta, P)` unchanged, so the map never grows; but on a
state that already contains landmarks, `update` fails — `associate` returns
nothing and the tuple unpacking at source line 432 raises — instead of acting
as a no-op. -/
theorem update_no_asso (cfg : Config) (hoff : cfg.do_asso = false) :
    (∀ (jcbb : JCBBFun) (M : ℕ) (eta : StIdx 0 → ℝ) (P : Matrix (StIdx 0) (StIdx 0) ℝ)
        (z : Fin M → ℝ × ℝ),
        update cfg jcbb eta P z = some ⟨0, ext0Vec eta, ext0Mat P, 1, fun _ => none⟩)
      ∧ (∀ (jcbb : JCBBFun) (L M : ℕ), 0 < L →
          ∀ (eta : StIdx L → ℝ) (P : Matrix (StIdx L) (StIdx L) ℝ) (z : Fin M → ℝ × ℝ),
          update cfg jcbb eta P z = none) := by
  constructor
  · intro jcbb M eta P z
    simp [update, newLmkStep, hoff]
  · intro jcbb L M hL eta P z
    simp [update, associate, hL, hoff]

/-- Counterexample for claim C8 as stated: with association disabled and a
state that already contains one landmark, `update` does not treat the batch as
unmatched — it fails (the source raises while unpacking the empty return of
`associate`). -/
theorem update_no_asso_counterexample :
    update cfgOff jcbb0 (fun _ : StIdx 1 => (0 : ℝ)) 0
        (fun _ : Fin 1 => ((1 : ℝ), (0 : ℝ))) = none := by
  norm_num [update, associate, cfgOff]

/-- Witness for claim C8: both conjuncts applied at concrete inputs. -/
theorem update_no_asso_witness :
    (update cfgOff jcbb0 (fun _ : StIdx 0 => (0 : ℝ)) 0
        (fun _ : Fin 1 => ((1 : ℝ), (0 : ℝ)))
        = some ⟨0, ext0Vec (fun _ : StIdx 0 => (0 : ℝ)), ext0Mat 0, 1, fun _ => none⟩)
      ∧ update cfgOff jcbb0 (fun _ : StIdx 1 => (0 : ℝ)) 0
          (fun _ : Fin 2 => ((1 : ℝ), (0 : ℝ))) = none :=
  ⟨(update_no_asso cfgOff rfl).1 jcbb0 1 _ _ _,
   (update_no_asso cfgOff rfl).2 jcbb0 1 2 one_pos _ _ _⟩

/-! ## Claim C2 -/

/-- Claim C2: in a Kalman correction step of `update` (at least one matched
measurement; here additionally every measurement matched, so the corrected
covariance is returned as is), the updated covariance equals `(I - W·Ha)·P`
where `W = P·Haᵀ·Sa⁻¹` is the Kalman gain and `P` the pre-update covariance;
the code computes it by the `jo = -W @ Ha; jo += I; Pupd = jo @ P`
construction, not as `P - W·S·Wᵀ`. -/
theorem update_joseph_form (cfg : Config) (jcbb : JCBBFun) {L M : ℕ}
    (eta : StIdx L → ℝ) (P : Matrix (StIdx L) (StIdx L) ℝ) (z : Fin M → ℝ × ℝ)
    (a : Assignment M L) (hL : 0 < L) (hasso : cfg.do_asso = true)
    (ha : jcbb z (h cfg eta) (Sbig cfg eta P) cfg.alphas.1 cfg.alphas.2 = a)
    (hsome : ¬ ∀ i, a i = none) (hallm : ¬ ∃ i, a i = none) :
    update cfg jcbb eta P z
      = some ⟨0,
          ext0Vec (fun idx => eta idx
            + (kalmanW P (Hass a (H cfg eta)) (Sass a (Sbig cfg eta P))
                *ᵥ innov a z (h cfg eta)) idx),
          ext0Mat ((1 - kalmanW P (Hass a (H cfg eta)) (Sass a (Sbig cfg eta P))
              * Hass a (H cfg eta)) * P),
          NIScalc (Sass a (Sbig cfg eta P)) (innov a z (h cfg eta)), a⟩ := by
  have hjo : josephCov (kalmanW P (Hass a (H cfg eta)) (Sass a (Sbig cfg eta P)))
      (Hass a (H cfg eta)) P
      = (1 - kalmanW P (Hass a (H cfg eta)) (Sass a (Sbig cfg eta P))
          * Hass a (H cfg eta)) * P := by
    rw [josephCov, addDiagOne_eq, ← sub_eq_add_neg]
  simp only [update, if_pos hL, associate, hasso, if_true, ha]
  rw [if_neg hsome]
  simp only [newLmkStep]
  rw [if_neg fun hc => hallm hc.2, hjo]

/-- Concrete one-landmark zero state, for witnesses. -/
def eta1 : StIdx 1 → ℝ := fun _ => 0

/-- Concrete single-measurement batch, for witnesses. -/
def z11 : Fin 1 → ℝ × ℝ := fun _ => (1, 0)

/-- Concrete assignment matching the single measurement with landmark 0. -/
def a11 : Assignment 1 1 := fun _ => some 0

/-- Witness for claim C2 at a concrete one-landmark, one-measurement input with
the measurement matched to the landmark. -/
theorem update_joseph_form_witness :
    update cfgOn jcbb0 eta1 0 z11
      = some ⟨0,
          ext0Vec (fun idx => eta1 idx
            + (kalmanW 0 (Hass a11 (H cfgOn eta1)) (Sass a11 (Sbig cfgOn eta1 0))
                *ᵥ innov a11 z11 (h cfgOn eta1)) idx),
          ext0Mat ((1 - kalmanW 0 (Hass a11 (H cfgOn eta1)) (Sass a11 (Sbig cfgOn eta1 0))
              * Hass a11 (H cfgOn eta1)) * 0),
          NIScalc (Sass a11 (Sbig cfgOn eta1 0)) (innov a11 z11 (h cfgOn eta1)), a11⟩ :=
  update_joseph_form cfgOn jcbb0 eta1 0 z11 a11 one_pos rfl
    (funext fun _ => by simp [jcbb0, a11])
    (by simp [a11]) (by simp [a11])

/-! ## Claim C5 -/

/-- Claim C5: initializing a landmark from a measurement `(r, θ)` with `r > 0`
and `θ ∈ (-π, π]` via `add_landmarks` and then predicting its measurement back
via `h` from the resulting state, with the robot state unchanged, reproduces
the original `(range, bearing)` — in exact arithmetic the round trip is exact,
which is within the claimed linearization error. -/
theorem h_range (cfg : Config) {L : ℕ} (eta : StIdx L → ℝ) (j : Fin L) :
    h cfg eta (j, 0) = norm2 (hDelta cfg eta j) := rfl

theorem h_bearing (cfg : Config) {L : ℕ} (eta : StIdx L → ℝ) (j : Fin L) :
    h cfg eta (j, 1)
      = atan2 (rotApply (-eta (Sum.inl 2)) (hDelta cfg eta j)).2
          (rotApply (-eta (Sum.inl 2)) (hDelta cfg eta j)).1 := rfl

theorem landmark_roundtrip (cfg : Config) {L : ℕ} (eta : StIdx L → ℝ)
    (P : Matrix (StIdx L) (StIdx L) ℝ) (r θ : ℝ) (hr : 0 < r)
    (hθ : θ ∈ Ioc (-π) π) :
    h cfg (castAdded ((add_landmarks cfg eta P fun _ : Fin 1 => (r, θ)).1))
        (⟨L, Nat.lt_succ_self L⟩, 0) = r
      ∧ h cfg (castAdded ((add_landmarks cfg eta P fun _ : Fin 1 => (r, θ)).1))
          (⟨L, Nat.lt_succ_self L⟩, 1) = θ := by
  set znew : Fin 1 → ℝ × ℝ := fun _ => (r, θ) with hznew
  set st : StIdx (L + 1) → ℝ := castAdded ((add_landmarks cfg eta P znew).1) with hst
  have hpose : ∀ t : Fin 3, st (Sum.inl t) = eta (Sum.inl t) := fun t => rfl
  have hlmval : ∀ c : Fin 2, st (Sum.inr (⟨L, Nat.lt_succ_self L⟩, c))
      = zcomp (lmnew cfg eta znew ⟨L - L, by omega⟩) c := by
    intro c
    show castAdded ((add_landmarks cfg eta P znew).1) (Sum.inr (⟨L, Nat.lt_succ_self L⟩, c)) = _
    simp only [castAdded, add_landmarks, etaAdded]
    rw [dif_neg (lt_irrefl L)]
    simp [Sum.elim_inr]
  have h0 : st (Sum.inr (⟨L, Nat.lt_succ_self L⟩, 0))
      = (lmnew cfg eta znew ⟨L - L, by omega⟩).1 := by
    rw [hlmval 0]
    exact if_pos rfl
  have h1 : st (Sum.inr (⟨L, Nat.lt_succ_self L⟩, 1))
      = (lmnew cfg eta znew ⟨L - L, by omega⟩).2 := by
    rw [hlmval 1]
    simp only [zcomp]
    rw [if_neg (by decide)]
  have hdelta : hDelta cfg st ⟨L, Nat.lt_succ_self L⟩
      = (r * Real.cos (eta (Sum.inl 2) + θ), r * Real.sin (eta (Sum.inl 2) + θ)) := by
    rw [hDelta, lm, h0, h1, hpose 0, hpose 1, hpose 2]
    simp only [lmnew, hznew]
    rw [Prod.mk.injEq]
    constructor <;>
      simp [rotmat2d, rotApply_def, Prod.fst_add, Prod.snd_add,
        Prod.fst_sub, Prod.snd_sub] <;>
      ring
  constructor
  · show h cfg st (⟨L, Nat.lt_succ_self L⟩, 0) = r
    rw [h_range, hdelta, norm2]
    have hsq : (r * Real.cos (eta (Sum.inl 2) + θ)) ^ 2
        + (r * Real.sin (eta (Sum.inl 2) + θ)) ^ 2 = r ^ 2 := by
      have hpyth : Real.sin (eta (Sum.inl 2) + θ) ^ 2
          + Real.cos (eta (Sum.inl 2) + θ) ^ 2 = 1 :=
        Real.sin_sq_add_cos_sq (eta (Sum.inl 2) + θ)
      nlinarith [hpyth]
    simp only [hsq]
    exact Real.sqrt_sq hr.le
  · show h cfg st (⟨L, Nat.lt_succ_self L⟩, 1) = θ
    rw [h_bearing, hpose 2, hdelta, rotApply_def]
    simp only [Real.cos_neg, Real.sin_neg]
    have hc1 : Real.cos (eta (Sum.inl 2)) * (r * Real.cos (eta (Sum.inl 2) + θ))
        - -Real.sin (eta (Sum.inl 2)) * (r * Real.sin (eta (Sum.inl 2) + θ))
        = r * Real.cos θ := by
      have hco : Real.cos (eta (Sum.inl 2) + θ - eta (Sum.inl 2))
          = Real.cos (eta (Sum.inl 2) + θ) * Real.cos (eta (Sum.inl 2))
            + Real.sin (eta (Sum.inl 2) + θ) * Real.sin (eta (Sum.inl 2)) :=
        Real.cos_sub _ _
      have harg : eta (Sum.inl 2) + θ - eta (Sum.inl 2) = θ := by ring
      rw [harg] at hco
      rw [hco]; ring
    have hs1 : -Real.sin (eta (Sum.inl 2)) * (r * Real.cos (eta (Sum.inl 2) + θ))
        + Real.cos (eta (Sum.inl 2)) * (r * Real.sin (eta (Sum.inl 2) + θ))
        = r * Real.sin θ := by
      have hsi : Real.sin (eta (Sum.inl 2) + θ - eta (Sum.inl 2))
          = Real.sin (eta (Sum.inl 2) + θ) * Real.cos (eta (Sum.inl 2))
            - Real.cos (eta (Sum.inl 2) + θ) * Real.sin (eta (Sum.inl 2)) :=
        Real.sin_sub _ _
      have harg : eta (Sum.inl 2) + θ - eta (Sum.inl 2) = θ := by ring
      rw [harg] at hsi
      rw [hsi]; ring
    rw [hc1, hs1, atan2]
    have hcast : ((r * Real.cos θ : ℝ) : ℂ) + (r * Real.sin θ : ℝ) * Complex.I
        = (r : ℂ) * (Complex.cos θ + Complex.sin θ * Complex.I) := by
      rw [Complex.ofReal_mul, Complex.ofReal_mul, Complex.ofReal_cos, Complex.ofReal_sin]
      ring
    rw [hcast]
    exact Complex.arg_mul_cos_add_sin_mul_I hr hθ

/-- Concrete landmark-free zero state, for witnesses. -/
def eta0 : StIdx 0 → ℝ := fun _ => 0

/-- Witness for claim C5 at the robot at the origin with measurement
`(r, θ) = (1, 0)`. -/
theorem landmark_roundtrip_witness :
    h cfgOn (castAdded ((add_landmarks cfgOn eta0 0 fun _ : Fin 1 => ((1 : ℝ), (0 : ℝ))).1))
        (⟨0, Nat.lt_succ_self 0⟩, 0) = 1
      ∧ h cfgOn (castAdded ((add_landmarks cfgOn eta0 0 fun _ : Fin 1 => ((1 : ℝ), (0 : ℝ))).1))
          (⟨0, Nat.lt_succ_self 0⟩, 1) = 0 :=
  landmark_roundtrip cfgOn eta0 0 1 0 one_pos
    (Set.mem_Ioc.mpr ⟨neg_lt_zero.mpr Real.pi_pos, Real.pi_pos.le⟩)

/-! ## Positive semi-definiteness machinery for claim C1 -/

theorem star_vec_eq {n : Type} (x : n → ℝ) : star x = x := funext fun _ => star_trivial _

theorem posSemidef_fromBlocks_diag {α β : Type} [Fintype α] [Fintype β]
    {A : Matrix α α ℝ} {D : Matrix β β ℝ} (hA : A.PosSemidef) (hD : D.PosSemidef) :
    (Matrix.fromBlocks A 0 0 D).PosSemidef := by
  constructor
  · have hconj : (Matrix.fromBlocks A 0 0 D)ᴴ = Matrix.fromBlocks Aᴴ 0 0 Dᴴ := by
      rw [Matrix.fromBlocks_conjTranspose]
      simp
    rw [Matrix.IsHermitian, hconj, hA.1, hD.1]
  · intro x
    rw [star_vec_eq]
    have hx : x = Sum.elim (x ∘ Sum.inl) (x ∘ Sum.inr) := by
      funext i; cases i <;> rfl
    rw [hx, Matrix.fromBlocks_mulVec]
    simp only [Matrix.zero_mulVec, add_zero, zero_add, Sum.elim_comp_inl, Sum.elim_comp_inr]
    rw [Matrix.sum_elim_dotProduct_sum_elim]
    have hA2 := hA.2 (x ∘ Sum.inl)
    have hD2 := hD.2 (x ∘ Sum.inr)
    rw [star_vec_eq] at hA2
    rw [star_vec_eq] at hD2
    exact add_nonneg hA2 hD2

theorem toBlocks21_of_hermitian {L : ℕ} {P : Matrix (StIdx L) (StIdx L) ℝ}
    (hP : P.IsHermitian) : P.toBlocks₂₁ = P.toBlocks₁₂ᵀ := by
  funext j i
  have happ := hP.apply (Sum.inr j) (Sum.inl i)
  rw [star_trivial] at happ
  simp only [Matrix.toBlocks₂₁, Matrix.toBlocks₁₂, Matrix.transpose_apply, Matrix.of_apply]
  exact happ.symm

theorem predictP_eq (cfg : Config) {L : ℕ} (eta : StIdx L → ℝ)
    {P : Matrix (StIdx L) (StIdx L) ℝ} (hP : P.IsHermitian) (u : Fin 3 → ℝ) :
    predictP cfg eta P u
      = Matrix.fromBlocks (Fx (fun i => eta (Sum.inl i)) u) 0 0 1 * P
          * (Matrix.fromBlocks (Fx (fun i => eta (Sum.inl i)) u) 0 0 1)ᵀ
        + Matrix.fromBlocks
            (Fu (fun i => eta (Sum.inl i)) u * cfg.Q * (Fu (fun i => eta (Sum.inl i)) u)ᵀ)
            0 0 0 := by
  conv_rhs => rw [← Matrix.fromBlocks_toBlocks P]
  rw [Matrix.fromBlocks_transpose, Matrix.fromBlocks_multiply, Matrix.fromBlocks_multiply,
    Matrix.fromBlocks_add, predictP, toBlocks21_of_hermitian hP]
  simp only [Matrix.transpose_zero, Matrix.transpose_one, Matrix.mul_zero, Matrix.zero_mul,
    add_zero, zero_add, Matrix.mul_one, Matrix.one_mul, Matrix.transpose_mul]

theorem det_Fx (x u : Fin 3 → ℝ) : (Fx x u).det = 1 := by
  rw [Matrix.det_fin_three]
  show (1 : ℝ) * 1 * 1
      - 1 * (rotmat2d (x 2 + π / 2) *ᵥ ![u 0, u 1]) 1 * 0
      - 0 * 0 * 1 + 0 * (rotmat2d (x 2 + π / 2) *ᵥ ![u 0, u 1]) 1 * 0
      + (rotmat2d (x 2 + π / 2) *ᵥ ![u 0, u 1]) 0 * 0 * 0
      - (rotmat2d (x 2 + π / 2) *ᵥ ![u 0, u 1]) 0 * 1 * 0 = 1
  ring

theorem posDef_mul_mul_transpose {n : Type} [Fintype n] [DecidableEq n]
    {P : Matrix n n ℝ} (hP : P.PosDef) {B : Matrix n n ℝ} (hB : IsUnit B.det) :
    (B * P * Bᵀ).PosDef := by
  have hPt : Pᵀ = P := by
    have h1 := hP.1
    rwa [Matrix.IsHermitian, Matrix.conjTranspose_eq_transpose_of_trivial] at h1
  constructor
  · rw [Matrix.IsHermitian, Matrix.conjTranspose_eq_transpose_of_trivial,
      Matrix.transpose_mul, Matrix.transpose_mul, Matrix.transpose_transpose, hPt,
      Matrix.mul_assoc]
  · intro x hx
    rw [star_vec_eq]
    have hy : Bᵀ *ᵥ x ≠ 0 := by
      intro h0
      apply hx
      have hinj : Function.Injective (Bᵀ).mulVec :=
        Matrix.mulVec_injective_iff_isUnit.mpr
          ((Matrix.isUnit_iff_isUnit_det _).mpr (by rwa [Matrix.det_transpose]))
      exact hinj (h0.trans (Matrix.mulVec_zero _).symm)
    have hquad : dotProduct x ((B * P * Bᵀ) *ᵥ x)
        = dotProduct (Bᵀ *ᵥ x) (P *ᵥ (Bᵀ *ᵥ x)) := by
      rw [← Matrix.mulVec_mulVec, ← Matrix.mulVec_mulVec, Matrix.dotProduct_mulVec,
        Matrix.mulVec_transpose]
    rw [hquad]
    have hq := hP.2 (Bᵀ *ᵥ x) hy
    rwa [star_vec_eq] at hq

theorem predictP_posSemidef (cfg : Config) {L : ℕ} (eta : StIdx L → ℝ)
    {P : Matrix (StIdx L) (StIdx L) ℝ} (hP : P.PosSemidef) (hQ : cfg.Q.PosSemidef)
    (u : Fin 3 → ℝ) : (predictP cfg eta P u).PosSemidef := by
  rw [predictP_eq cfg eta hP.1 u]
  refine Matrix.PosSemidef.add ?_ (posSemidef_fromBlocks_diag ?_
    (Matrix.PosSemidef.zero : (0 : Matrix (Fin L × Fin 2) (Fin L × Fin 2) ℝ).PosSemidef))
  · have hmm := hP.mul_mul_conjTranspose_same
      (Matrix.fromBlocks (Fx (fun i => eta (Sum.inl i)) u) 0 0
        (1 : Matrix (Fin L × Fin 2) (Fin L × Fin 2) ℝ))
    rwa [Matrix.conjTranspose_eq_transpose_of_trivial] at hmm
  · have hmm := hQ.mul_mul_conjTranspose_same (Fu (fun i => eta (Sum.inl i)) u)
    rwa [Matrix.conjTranspose_eq_transpose_of_trivial] at hmm

theorem det_fromBlocks_Fx {L : ℕ} (x u : Fin 3 → ℝ) :
    IsUnit (Matrix.fromBlocks (Fx x u) 0 0
      (1 : Matrix (Fin L × Fin 2) (Fin L × Fin 2) ℝ)).det := by
  rw [Matrix.det_fromBlocks_zero₂₁, det_Fx, Matrix.det_one, one_mul]
  exact isUnit_one

theorem predictP_posDef (cfg : Config) {L : ℕ} (eta : StIdx L → ℝ)
    {P : Matrix (StIdx L) (StIdx L) ℝ} (hP : P.PosDef) (hQ : cfg.Q.PosSemidef)
    (u : Fin 3 → ℝ) : (predictP cfg eta P u).PosDef := by
  rw [predictP_eq cfg eta hP.1 u]
  refine Matrix.PosDef.add_posSemidef ?_ (posSemidef_fromBlocks_diag ?_
    (Matrix.PosSemidef.zero : (0 : Matrix (Fin L × Fin 2) (Fin L × Fin 2) ℝ).PosSemidef))
  · exact posDef_mul_mul_transpose hP (det_fromBlocks_Fx _ _)
  · have hmm := hQ.mul_mul_conjTranspose_same (Fu (fun i => eta (Sum.inl i)) u)
    rwa [Matrix.conjTranspose_eq_transpose_of_trivial] at hmm

theorem josephCov_posSemidef {n m : Type} [Fintype n] [Fintype m] [DecidableEq n]
    [DecidableEq m] {P : Matrix n n ℝ} {Ra : Matrix m m ℝ} (Ha : Matrix m n ℝ)
    (hP : P.PosSemidef) (hRa : Ra.PosDef) :
    (josephCov (kalmanW P Ha (Ha * P * Haᵀ + Ra)) Ha P).PosSemidef := by
  have hHPHt : (Ha * P * Haᵀ).PosSemidef := by
    have hmm := hP.mul_mul_conjTranspose_same Ha
    rwa [Matrix.conjTranspose_eq_transpose_of_trivial] at hmm
  have hSaPD : (Ha * P * Haᵀ + Ra).PosDef := Matrix.PosDef.posSemidef_add hHPHt hRa
  have hdet : IsUnit (Ha * P * Haᵀ + Ra).det :=
    isUnit_iff_ne_zero.mpr (ne_of_gt hSaPD.det_pos)
  have hWS : kalmanW P Ha (Ha * P * Haᵀ + Ra) * (Ha * P * Haᵀ + Ra) = P * Haᵀ := by
    rw [kalmanW, Matrix.mul_assoc (P * Haᵀ), Matrix.nonsing_inv_mul _ hdet, Matrix.mul_one]
  set W := kalmanW P Ha (Ha * P * Haᵀ + Ra) with hWdef
  have hgroup : W * Ha * P * Haᵀ * Wᵀ + W * Ra * Wᵀ = P * Haᵀ * Wᵀ := by
    have hfold : W * (Ha * P * Haᵀ + Ra) * Wᵀ
        = W * Ha * P * Haᵀ * Wᵀ + W * Ra * Wᵀ := by
      rw [Matrix.mul_add, Matrix.add_mul, ← Matrix.mul_assoc W (Ha * P) Haᵀ,
        ← Matrix.mul_assoc W Ha P]
    rw [← hfold, hWS]
  have key : josephCov W Ha P
      = (1 - W * Ha) * P * (1 - W * Ha)ᵀ + W * Ra * Wᵀ := by
    rw [josephCov, addDiagOne_eq, ← sub_eq_add_neg]
    have hTr : (1 - W * Ha)ᵀ = 1 - Haᵀ * Wᵀ := by
      rw [Matrix.transpose_sub, Matrix.transpose_one, Matrix.transpose_mul]
    rw [hTr]
    have hexp : (1 - W * Ha) * P * (1 - Haᵀ * Wᵀ) + W * Ra * Wᵀ
        = P - P * Haᵀ * Wᵀ - W * Ha * P + (W * Ha * P * Haᵀ * Wᵀ + W * Ra * Wᵀ) := by
      rw [Matrix.sub_mul, Matrix.one_mul, Matrix.mul_sub, Matrix.mul_one, Matrix.sub_mul,
        ← Matrix.mul_assoc P Haᵀ Wᵀ, ← Matrix.mul_assoc (W * Ha * P) Haᵀ Wᵀ]
      abel
    rw [hexp, hgroup, Matrix.sub_mul, Matrix.one_mul]
    abel
  rw [key]
  refine Matrix.PosSemidef.add ?_ ?_
  · have hmm := hP.mul_mul_conjTranspose_same (1 - W * Ha)
    rwa [Matrix.conjTranspose_eq_transpose_of_trivial] at hmm
  · have hmm := hRa.posSemidef.mul_mul_conjTranspose_same W
    rwa [Matrix.conjTranspose_eq_transpose_of_trivial] at hmm

theorem mul_pad3 {L : ℕ} (P : Matrix (StIdx L) (StIdx L) ℝ) :
    P * Pcols3 (1 : Matrix (StIdx L) (StIdx L) ℝ) = Pcols3 P := by
  ext i t
  simp [Matrix.mul_apply, Pcols3, Matrix.one_apply, Matrix.submatrix_apply]

theorem pad3t_mul {L : ℕ} {P : Matrix (StIdx L) (StIdx L) ℝ} (hP : P.IsHermitian) :
    (Pcols3 (1 : Matrix (StIdx L) (StIdx L) ℝ))ᵀ * P = (Pcols3 P)ᵀ := by
  ext t i
  simp only [Matrix.mul_apply, Pcols3, Matrix.one_apply, Matrix.transpose_apply,
    Matrix.submatrix_apply, id_eq, ite_mul, one_mul, zero_mul, Finset.sum_ite_eq,
    Finset.sum_ite_eq', Finset.mem_univ, if_true]
  have happ := hP.apply (Sum.inl t) i
  rw [star_trivial] at happ
  exact happ.symm

theorem pad3t_mul_pad3 {L : ℕ} (P : Matrix (StIdx L) (StIdx L) ℝ) :
    (Pcols3 (1 : Matrix (StIdx L) (StIdx L) ℝ))ᵀ * P
      * Pcols3 (1 : Matrix (StIdx L) (StIdx L) ℝ) = P.toBlocks₁₁ := by
  rw [Matrix.mul_assoc, mul_pad3]
  ext t s
  simp [Matrix.mul_apply, Pcols3, Matrix.one_apply, Matrix.transpose_apply,
    Matrix.submatrix_apply, Matrix.toBlocks₁₁]

theorem Rall_posSemidef (cfg : Config) {k : ℕ} (psi : ℝ) (znew : Fin k → ℝ × ℝ)
    (hR : cfg.R.PosSemidef) : (Rall cfg psi znew).PosSemidef := by
  have hB : ∀ j, (Gz psi znew j * cfg.R * (Gz psi znew j)ᵀ).PosSemidef := fun j => by
    have hmm := hR.mul_mul_conjTranspose_same (Gz psi znew j)
    rwa [Matrix.conjTranspose_eq_transpose_of_trivial] at hmm
  constructor
  · show (Rall cfg psi znew)ᴴ = _
    ext p q
    simp only [Matrix.conjTranspose_apply, Rall, Matrix.of_apply, star_trivial]
    by_cases hj : q.1 = p.1
    · rw [if_pos hj, if_pos hj.symm]
      obtain ⟨qj, qc⟩ := q
      obtain ⟨pj, pc⟩ := p
      dsimp only at hj ⊢
      subst hj
      have happ := (hB qj).1.apply pc qc
      rw [star_trivial] at happ
      exact happ.symm ▸ rfl
    · rw [if_neg hj, if_neg fun hh => hj hh.symm]
  · intro x
    rw [star_vec_eq]
    have hq : dotProduct x (Rall cfg psi znew *ᵥ x)
        = ∑ j : Fin k, dotProduct (fun c => x (j, c))
            ((Gz psi znew j * cfg.R * (Gz psi znew j)ᵀ) *ᵥ fun c => x (j, c)) := by
      simp only [dotProduct, Matrix.mulVec, Fintype.sum_prod_type, Rall, Matrix.of_apply]
      refine Finset.sum_congr rfl fun j _ => Finset.sum_congr rfl fun c _ => ?_
      congr 1
      rw [Finset.sum_comm]
      refine Finset.sum_congr rfl fun d _ => ?_
      simp [Finset.sum_ite_eq, ite_mul, zero_mul]
    rw [hq]
    refine Finset.sum_nonneg fun j _ => ?_
    have h2 := (hB j).2 fun c => x (j, c)
    rwa [star_vec_eq] at h2

theorem Padded_eq (cfg : Config) {L k : ℕ} (eta : StIdx L → ℝ)
    {P : Matrix (StIdx L) (StIdx L) ℝ} (hP : P.IsHermitian) (znew : Fin k → ℝ × ℝ) :
    Padded cfg eta P znew
      = (Matrix.fromColumns 1
            (Pcols3 (1 : Matrix (StIdx L) (StIdx L) ℝ) * (Gx cfg eta znew)ᵀ))ᵀ * P
          * Matrix.fromColumns 1 (Pcols3 (1 : Matrix (StIdx L) (StIdx L) ℝ)
              * (Gx cfg eta znew)ᵀ)
        + Matrix.fromBlocks 0 0 0 (Rall cfg (eta (Sum.inl 2)) znew) := by
  set K := Pcols3 (1 : Matrix (StIdx L) (StIdx L) ℝ) * (Gx cfg eta znew)ᵀ with hK
  have h1 : P * K = Pcols3 P * (Gx cfg eta znew)ᵀ := by
    rw [hK, ← Matrix.mul_assoc, mul_pad3]
  have h2 : (Pcols3 P * (Gx cfg eta znew)ᵀ)ᵀ = Kᵀ * P := by
    rw [Matrix.transpose_mul, Matrix.transpose_transpose, ← pad3t_mul hP, hK,
      Matrix.transpose_mul, Matrix.transpose_transpose, Matrix.mul_assoc]
  have h3 : Kᵀ * P * K = Gx cfg eta znew * P.toBlocks₁₁ * (Gx cfg eta znew)ᵀ := by
    rw [hK, Matrix.transpose_mul, Matrix.transpose_transpose]
    have hassoc : Gx cfg eta znew * (Pcols3 (1 : Matrix (StIdx L) (StIdx L) ℝ))ᵀ * P
        * (Pcols3 (1 : Matrix (StIdx L) (StIdx L) ℝ) * (Gx cfg eta znew)ᵀ)
        = Gx cfg eta znew * ((Pcols3 (1 : Matrix (StIdx L) (StIdx L) ℝ))ᵀ * P
            * Pcols3 (1 : Matrix (StIdx L) (StIdx L) ℝ)) * (Gx cfg eta znew)ᵀ := by
      rw [Matrix.mul_assoc (Gx cfg eta znew) ((Pcols3 (1 : Matrix (StIdx L) (StIdx L) ℝ))ᵀ) P,
        ← Matrix.mul_assoc
          (Gx cfg eta znew * ((Pcols3 (1 : Matrix (StIdx L) (StIdx L) ℝ))ᵀ * P))
          (Pcols3 (1 : Matrix (StIdx L) (StIdx L) ℝ)) ((Gx cfg eta znew)ᵀ),
        Matrix.mul_assoc (Gx cfg eta znew)
          ((Pcols3 (1 : Matrix (StIdx L) (StIdx L) ℝ))ᵀ * P)
          (Pcols3 (1 : Matrix (StIdx L) (StIdx L) ℝ))]
    rw [hassoc, pad3t_mul_pad3]
  rw [Matrix.transpose_fromColumns, Matrix.transpose_one, Matrix.fromRows_mul,
    Matrix.fromRows_mul_fromColumns, Matrix.fromBlocks_add]
  simp only [Matrix.mul_one, Matrix.one_mul, add_zero, zero_add]
  rw [h1, h3, ← h2, Padded]

theorem Padded_posSemidef (cfg : Config) {L k : ℕ} (eta : StIdx L → ℝ)
    {P : Matrix (StIdx L) (StIdx L) ℝ} (hP : P.PosSemidef)
    (hR : cfg.R.PosSemidef) (znew : Fin k → ℝ × ℝ) :
    (Padded cfg eta P znew).PosSemidef := by
  rw [Padded_eq cfg eta hP.1 znew]
  refine Matrix.PosSemidef.add ?_
    (posSemidef_fromBlocks_diag
      (Matrix.PosSemidef.zero : (0 : Matrix (StIdx L) (StIdx L) ℝ).PosSemidef)
      (Rall_posSemidef cfg _ znew hR))
  have hmm := hP.conjTranspose_mul_mul_same
    (Matrix.fromColumns (1 : Matrix (StIdx L) (StIdx L) ℝ)
      (Pcols3 (1 : Matrix (StIdx L) (StIdx L) ℝ) * (Gx cfg eta znew)ᵀ))
  rwa [Matrix.conjTranspose_eq_transpose_of_trivial] at hmm

/-! ## Claim C1 -/

/-- Claim C1 (amended): for every valid input (`P` symmetric positive
semi-definite and the configured noise models PSD resp. PD) the covariance
produced by `predict` and by every state-changing branch of `update` — the
Joseph-form Kalman correction, and the `add_landmarks` augmentation — is
symmetric positive semi-definite (`Matrix.PosSemidef` over `ℝ` is symmetry plus
a nonnegative quadratic form); after `predict` the result is additionally
strictly positive definite provided the input covariance is strictly positive
definite.  A merely positive semi-definite input can yield a singular predicted
covariance, so strict definiteness needs the strengthened hypothesis. -/
theorem covariance_psd_invariant :
    (∀ (cfg : Config) (L : ℕ) (eta : StIdx L → ℝ) (P : Matrix (StIdx L) (StIdx L) ℝ)
        (u : Fin 3 → ℝ), P.PosSemidef → cfg.Q.PosSemidef →
        (predictP cfg eta P u).PosSemidef)
      ∧ (∀ (cfg : Config) (L : ℕ) (eta : StIdx L → ℝ) (P : Matrix (StIdx L) (StIdx L) ℝ)
          (u : Fin 3 → ℝ), P.PosDef → cfg.Q.PosSemidef → (predictP cfg eta P u).PosDef)
      ∧ (∀ (n m : Type) [Fintype n] [Fintype m] [DecidableEq n] [DecidableEq m]
          (P : Matrix n n ℝ) (Ha : Matrix m n ℝ) (Ra : Matrix m m ℝ),
          P.PosSemidef → Ra.PosDef →
          (josephCov (kalmanW P Ha (Ha * P * Haᵀ + Ra)) Ha P).PosSemidef)
      ∧ (∀ (cfg : Config) (L k : ℕ) (eta : StIdx L → ℝ)
          (P : Matrix (StIdx L) (StIdx L) ℝ) (znew : Fin k → ℝ × ℝ),
          P.PosSemidef → cfg.R.PosSemidef →
          ((add_landmarks cfg eta P znew).2).PosSemidef) := by
  refine ⟨?_, ?_, ?_, ?_⟩
  · intro cfg L eta P u hP hQ
    exact predictP_posSemidef cfg eta hP hQ u
  · intro cfg L eta P u hP hQ
    exact predictP_posDef cfg eta hP hQ u
  · intro n m _ _ _ _ P Ha Ra hP hRa
    exact josephCov_posSemidef Ha hP hRa
  · intro cfg L k eta P znew hP hR
    exact Padded_posSemidef cfg eta hP hR znew

/-- Counterexample for claim C1 as stated: at the valid input below (`P = 0` is
symmetric positive semi-definite and the process noise is the identity) the
covariance returned by `predict` keeps a zero map-map block, so it is not
strictly positive definite. -/
theorem predict_not_posDef :
    (0 : Matrix (StIdx 1) (StIdx 1) ℝ).PosSemidef
      ∧ ¬ (predictP cfgOn eta1 (0 : Matrix (StIdx 1) (StIdx 1) ℝ)
            fun _ => 0).PosDef := by
  refine ⟨Matrix.PosSemidef.zero, fun hPD => ?_⟩
  have hx : (Pi.single (Sum.inr ((0 : Fin 1), (0 : Fin 2))) (1 : ℝ) : StIdx 1 → ℝ) ≠ 0 := by
    intro h0
    have h1 := congrFun h0 (Sum.inr (0, 0))
    rw [Pi.single_eq_same] at h1
    exact one_ne_zero h1
  have hq := hPD.2 _ hx
  rw [star_vec_eq] at hq
  have hval : dotProduct (Pi.single (Sum.inr ((0 : Fin 1), (0 : Fin 2))) (1 : ℝ))
      ((predictP cfgOn eta1 0 fun _ => 0)
        *ᵥ Pi.single (Sum.inr ((0 : Fin 1), (0 : Fin 2))) (1 : ℝ))
      = (predictP cfgOn eta1 0 fun _ => 0) (Sum.inr (0, 0)) (Sum.inr (0, 0)) := by
    rw [Matrix.mulVec_single, Matrix.single_dotProduct, one_mul, mul_one]
  rw [hval] at hq
  have hentry : (predictP cfgOn eta1 0 fun _ => 0)
      (Sum.inr ((0 : Fin 1), (0 : Fin 2))) (Sum.inr (0, 0)) = 0 := by
    simp [predictP, Matrix.toBlocks₂₂]
  rw [hentry] at hq
  exact lt_irrefl 0 hq

/-- Witness for claim C1: the four conjuncts applied at concrete inputs. -/
theorem covariance_psd_invariant_witness :
    (predictP cfgOn eta1 0 fun _ => 0).PosSemidef
      ∧ (predictP cfgOn eta1 1 fun _ => 0).PosDef
      ∧ (josephCov (kalmanW (0 : Matrix (Fin 1) (Fin 1) ℝ) (0 : Matrix (Fin 1) (Fin 1) ℝ)
            ((0 : Matrix (Fin 1) (Fin 1) ℝ) * (0 : Matrix (Fin 1) (Fin 1) ℝ)
              * (0 : Matrix (Fin 1) (Fin 1) ℝ)ᵀ + 1))
          (0 : Matrix (Fin 1) (Fin 1) ℝ) (0 : Matrix (Fin 1) (Fin 1) ℝ)).PosSemidef
      ∧ ((add_landmarks cfgOn eta1 0 fun _ : Fin 1 => ((1 : ℝ), (0 : ℝ))).2).PosSemidef :=
  ⟨covariance_psd_invariant.1 cfgOn 1 eta1 0 (fun _ => 0)
      Matrix.PosSemidef.zero Matrix.PosSemidef.one,
   covariance_psd_invariant.2.1 cfgOn 1 eta1 1 (fun _ => 0)
      Matrix.PosDef.one Matrix.PosSemidef.one,
   covariance_psd_invariant.2.2.1 (Fin 1) (Fin 1) 0 0 1
      Matrix.PosSemidef.zero Matrix.PosDef.one,
   covariance_psd_invariant.2.2.2 cfgOn 1 1 eta1 0 (fun _ => ((1 : ℝ), (0 : ℝ)))
      Matrix.PosSemidef.zero Matrix.PosSemidef.one⟩

/-! ## Claim C9 -/

theorem NEESes_eq_core (x : Fin 3 → ℝ) (P : Matrix (Fin 3) (Fin 3) ℝ)
    (x_gt : Fin 3 → ℝ) : NEESes x P x_gt = NEEScore x P x_gt := by
  have hcast : ∀ (hsize : (3 : ℕ) = 3) (v : Fin 3 → ℝ),
      (fun i => v (Fin.cast hsize i)) = v :=
    fun hsize v => funext fun i => congrArg v (Fin.ext rfl)
  have hcastM : ∀ hsize : (3 : ℕ) = 3,
      P.submatrix (Fin.cast hsize) (Fin.cast hsize) = P := by
    intro hsize
    ext i j
    rw [Matrix.submatrix_apply]
    congr 1 <;> exact Fin.ext rfl
  rw [NEESes, dif_pos rfl, dif_pos rfl, dif_pos rfl, hcast _ x, hcast _ x_gt, hcastM]

/-- Claim C9 (amended): in `NEESes` the heading error component is wrapped
before squaring, and among the three returned values only a `nan`
(a 0/0 heading term) is clamped to the neutral value 1.0; a zero heading
variance with nonzero wrapped heading error produces `+inf`, which is returned
to the caller unclamped, and a singular covariance makes the linear solve raise
(see the counterexample) rather than being clamped. -/
theorem NEESes_wrap_and_clamp (x : Fin 3 → ℝ) (P : Matrix (Fin 3) (Fin 3) ℝ)
    (x_gt : Fin 3 → ℝ) (hdet : P.det ≠ 0)
    (hdetp : (P.submatrix Fin.castSucc Fin.castSucc).det ≠ 0)
    (hall : 0 ≤ dotProduct (neesErr x x_gt) (P⁻¹ *ᵥ neesErr x x_gt))
    (hpos : 0 ≤ dotProduct (fun i => neesErr x x_gt i.castSucc)
        ((P.submatrix Fin.castSucc Fin.castSucc)⁻¹ *ᵥ fun i => neesErr x x_gt i.castSucc))
    (hhd : P 2 2 ≠ 0 → 0 ≤ wrapToPi (x 2 - x_gt 2) ^ 2 / P 2 2) :
    NEESes x P x_gt = Except.ok
      (FVal.num (dotProduct (neesErr x x_gt) (P⁻¹ *ᵥ neesErr x x_gt)),
       FVal.num (dotProduct (fun i => neesErr x x_gt i.castSucc)
          ((P.submatrix Fin.castSucc Fin.castSucc)⁻¹ *ᵥ fun i => neesErr x x_gt i.castSucc)),
       if P 2 2 = 0 then
         (if wrapToPi (x 2 - x_gt 2) = 0 then FVal.num 1 else FVal.inf)
       else FVal.num (wrapToPi (x 2 - x_gt 2) ^ 2 / P 2 2)) := by
  have hw := wrapToPi_mem_Ioc (x 2 - x_gt 2)
  have hres3 : clampNaN (fdiv (neesErr x x_gt 2 ^ 2) (P 2 2))
      = if P 2 2 = 0 then
          (if wrapToPi (x 2 - x_gt 2) = 0 then FVal.num 1 else FVal.inf)
        else FVal.num (wrapToPi (x 2 - x_gt 2) ^ 2 / P 2 2) := by
    rw [neesErr_two, fdiv]
    by_cases hP22 : P 2 2 = 0
    · rw [if_pos hP22, if_pos hP22]
      by_cases hd2 : wrapToPi (x 2 - x_gt 2) = 0
      · rw [if_pos (by rw [hd2]; norm_num), if_pos hd2]
        rfl
      · rw [if_neg (pow_ne_zero 2 hd2), if_neg hd2]
        rfl
    · rw [if_neg hP22, if_neg hP22]
      rfl
  have hres3nn : fvNonneg (clampNaN (fdiv (neesErr x x_gt 2 ^ 2) (P 2 2))) := by
    rw [hres3]
    by_cases hP22 : P 2 2 = 0
    · rw [if_pos hP22]
      by_cases hd2 : wrapToPi (x 2 - x_gt 2) = 0
      · rw [if_pos hd2]
        exact zero_le_one
      · rw [if_neg hd2]
        trivial
    · rw [if_neg hP22]
      exact hhd hP22
  rw [NEESes_eq_core, NEEScore,
    if_pos ⟨le_of_lt (by rw [neesErr_two]; exact hw.1), by rw [neesErr_two]; exact hw.2⟩]
  simp only [npSolve, hdet, hdetp, if_false]
  rw [if_pos ⟨hall, hpos, hres3nn⟩, hres3]
  rfl

/-- Counterexample for claim C9 as stated: the degenerate zero-heading-variance
covariance `diag(1, 1, 0)` makes `np.linalg.solve` raise `LinAlgError`, which
propagates to the caller — the division-by-zero in the degenerate configuration
is not clamped to the neutral value 1.0. -/
theorem NEESes_counterexample :
    NEESes ![(0 : ℝ), 0, 1] (Matrix.diagonal ![(1 : ℝ), 1, 0]) ![(0 : ℝ), 0, 0]
      = Except.error "LinAlgError: Singular matrix" := by
  have hw := wrapToPi_mem_Ioc ((![(0 : ℝ), 0, 1] : Fin 3 → ℝ) 2
    - (![(0 : ℝ), 0, 0] : Fin 3 → ℝ) 2)
  have hdet0 : (Matrix.diagonal ![(1 : ℝ), 1, 0]).det = 0 := by
    rw [Matrix.det_diagonal]
    rw [Fin.prod_univ_three]
    simp
  rw [NEESes_eq_core, NEEScore,
    if_pos ⟨le_of_lt (by rw [neesErr_two]; exact hw.1), by rw [neesErr_two]; exact hw.2⟩,
    npSolve, if_pos hdet0]

/-- Witness for claim C9 at the identity covariance with zero error. -/
theorem NEESes_wrap_and_clamp_witness :
    NEESes (fun _ : Fin 3 => (0 : ℝ)) (1 : Matrix (Fin 3) (Fin 3) ℝ) (fun _ : Fin 3 => (0 : ℝ))
      = Except.ok
        (FVal.num (dotProduct (neesErr (fun _ => 0) fun _ => 0)
            ((1 : Matrix (Fin 3) (Fin 3) ℝ)⁻¹ *ᵥ neesErr (fun _ => 0) fun _ => 0)),
         FVal.num (dotProduct (fun i => neesErr (fun _ => 0) (fun _ => 0) i.castSucc)
            (((1 : Matrix (Fin 3) (Fin 3) ℝ).submatrix Fin.castSucc Fin.castSucc)⁻¹
              *ᵥ fun i => neesErr (fun _ => 0) (fun _ => 0) i.castSucc)),
         if (1 : Matrix (Fin 3) (Fin 3) ℝ) 2 2 = 0 then
           (if wrapToPi ((0 : ℝ) - 0) = 0 then FVal.num 1 else FVal.inf)
         else FVal.num (wrapToPi ((0 : ℝ) - 0) ^ 2 / (1 : Matrix (Fin 3) (Fin 3) ℝ) 2 2)) := by
  have hzero : wrapToPi ((0 : ℝ) - 0) = 0 := by
    rw [sub_zero]
    exact wrapToPi_eq_self (Set.mem_Ioc.mpr ⟨neg_lt_zero.mpr Real.pi_pos, Real.pi_pos.le⟩)
  have herr : neesErr (fun _ : Fin 3 => (0 : ℝ)) (fun _ : Fin 3 => (0 : ℝ))
      = (0 : Fin 3 → ℝ) := by
    funext i
    by_cases hi : i = 2
    · rw [neesErr]
      rw [if_pos hi]
      exact hzero.trans rfl
    · rw [neesErr]
      rw [if_neg hi, sub_zero]
      rfl
  have hsub : (1 : Matrix (Fin 3) (Fin 3) ℝ).submatrix Fin.castSucc Fin.castSucc = 1 := by
    ext i j
    rw [Matrix.submatrix_apply, Matrix.one_apply, Matrix.one_apply]
    by_cases hij : i = j
    · rw [if_pos hij, if_pos (by rw [hij])]
    · rw [if_neg hij, if_neg (by intro hc; exact hij (Fin.castSucc_injective _ hc))]
  refine NEESes_wrap_and_clamp _ _ _ ?_ ?_ ?_ ?_ ?_
  · rw [Matrix.det_one]
    norm_num
  · rw [hsub, Matrix.det_one]
    norm_num
  · rw [herr, Matrix.mulVec_zero, Matrix.dotProduct_zero]
  · rw [herr]
    have hz : (fun i : Fin 2 => (0 : Fin 3 → ℝ) i.castSucc) = (0 : Fin 2 → ℝ) := rfl
    rw [hz, Matrix.mulVec_zero, Matrix.dotProduct_zero]
  · intro h22
    rw [hzero]
    norm_num

end EKFSLAM
